import Mathlib

/-!
Shallow embedding of `src/main.py` (the "5 symbols" word-deduction helper):
the `Rule` constraint class, the word-matching predicate, the ranking
heuristic, the candidate-set filtering, and the corpus loader.

Conventions of the embedding:
* Python strings are `List Char`; a corpus word is a `Word`.
* Python dicts (`defaultdict(set)`) keyed by characters are insertion-ordered
  association lists `List (Char × List Nat)`; the per-key sets of positions
  are duplicate-free lists in insertion order.
* Python sets of words (`matched_words`) are `Finset Word`.
* A Python function that can raise (`IndexError` in `Rule.matches`,
  `FileNotFoundError` in `read_file`) returns an `Option`, with `none`
  standing for the raised exception.
* Python floats (the `need_check` weights `0.0`, `0.1`, `1.0 - 0.07·n`) are
  modelled as exact rationals `ℚ`; no claim below depends on rounding.
-/

abbrev Word := List Char

/-- Association-list model of a Python `dict[str, set[int]]`:
first entry with the key wins, as dict keys are unique. -/
def dictGet (d : List (Char × List Nat)) (c : Char) : List Nat :=
  match d.find? (fun p => p.1 = c) with
  | some p => p.2
  | none => []

/-- Model of `c in d` on a Python dict: does the key occur. -/
def dictHasKey (d : List (Char × List Nat)) (c : Char) : Bool :=
  d.any (fun p => p.1 = c)

/-- Model of `d[c].add(n)` on a `defaultdict(set)`: create the key if missing,
add `n` to its set (no-op when `n` is already present). -/
def dictAdd (d : List (Char × List Nat)) (c : Char) (n : Nat) : List (Char × List Nat) :=
  if dictHasKey d c then
    d.map (fun p => if p.1 = c then (p.1, if n ∈ p.2 then p.2 else p.2 ++ [n]) else p)
  else
    d ++ [(c, [n])]

/-- The `Rule` class state: `_exists` (present-misplaced), `_match` (exact),
`_not_exists` (absent). -/
structure Rule where
  existsRules : List (Char × List Nat)
  matchRules : List (Char × List Nat)
  notExistsRules : List Char
deriving DecidableEq

/-- Python `Rule.__init__`: all three containers empty. -/
def Rule.init : Rule :=
  ⟨[], [], []⟩

/-- Python `Rule.add_exists_rule(symbol, not_matched_position)`. -/
def Rule.add_exists_rule (r : Rule) (symbol : Char) (pos : Nat) : Rule :=
  { r with existsRules := dictAdd r.existsRules symbol pos }

/-- Python `Rule.add_match_rule(symbol, matched_position)`. -/
def Rule.add_match_rule (r : Rule) (symbol : Char) (pos : Nat) : Rule :=
  { r with matchRules := dictAdd r.matchRules symbol pos }

/-- Python `Rule.add_not_exists_rule(symbol)` (`set.add`: no-op when present). -/
def Rule.add_not_exists_rule (r : Rule) (symbol : Char) : Rule :=
  { r with notExistsRules :=
      if symbol ∈ r.notExistsRules then r.notExistsRules else r.notExistsRules ++ [symbol] }

/-- Model of `any(word[position] != symbol for position in positions)`:
`none` models the `IndexError` raised when a position is out of range;
the generator short-circuits at the first mismatching in-range position. -/
def checkPositions (w : Word) (symbol : Char) : List Nat → Option Bool
  | [] => some false
  | p :: ps =>
    match w.get? p with
    | none => none
    | some c => if c ≠ symbol then some true else checkPositions w symbol ps

/-- The first loop of `Rule.matches`: over the `_match` dict entries, return
`False` at the first entry whose `any(...)` is true; `none` models a raised
`IndexError`; `some true` means every exact rule is satisfied. -/
def matchLoop (w : Word) : List (Char × List Nat) → Option Bool
  | [] => some true
  | (symbol, ps) :: rest =>
    match checkPositions w symbol ps with
    | none => none
    | some true => some false
    | some false => matchLoop w rest

/-- The second loop of `Rule.matches` (`for position, symbol in
enumerate(word)`): rejects on an absent symbol, or on a present-misplaced
symbol standing at an excluded position (the clause `symbol not in word`
is kept as in the source even though `symbol` is drawn from `word`). -/
def existsLoop (r : Rule) (w : Word) : Nat → List Char → Bool
  | _, [] => true
  | pos, c :: cs =>
    if c ∈ r.notExistsRules then false
    else if dictHasKey r.existsRules c ∧ (pos ∈ dictGet r.existsRules c ∨ c ∉ w) then false
    else existsLoop r w (pos + 1) cs

/-- Python `Rule.matches(word)`: `none` models a raised `IndexError`. -/
def Rule.matches (r : Rule) (w : Word) : Option Bool :=
  match matchLoop w r.matchRules with
  | none => none
  | some false => some false
  | some true => some (existsLoop r w 0 w)

/-- Python `Rule.TOTAL_SYMBOLS`. -/
def Rule.TOTAL_SYMBOLS : Nat := 5

/-- Python `Rule.need_check(symbol, position, found_symbols)`, with the float
weights as exact rationals. -/
def Rule.need_check (r : Rule) (symbol : Char) (pos : Nat) (found : Finset Char) : ℚ :=
  if symbol ∈ r.notExistsRules ∨
      (dictHasKey r.existsRules symbol ∧ pos ∈ dictGet r.existsRules symbol) then 0
  else if dictHasKey r.matchRules symbol ∧ pos ∉ dictGet r.matchRules symbol then
    (if found.card < Rule.TOTAL_SYMBOLS then 1 / 10 else 0)
  else 1 - 7 / 100 * found.card

/-- Model of `symbols_counter` as rebuilt by `update_symbols_counter()`:
`Counter` over all symbols of all matched words, so the count of `c` is the
total number of occurrences of `c` across the matched words. -/
def symbolsCounter (ws : Finset Word) (c : Char) : ℕ :=
  ∑ w ∈ ws, w.count c

/-- The loop of `rank_word`: `checked` is the set of symbols already counted;
each new symbol subtracts `need_check(symbol, position, found) *
symbols_counter[symbol]` from the running rank. -/
def rankWordAux (r : Rule) (counter : Char → ℕ) (found : Finset Char) :
    Nat → List Char → List Char → ℚ
  | _, _, [] => 0
  | pos, checked, c :: cs =>
    if c ∈ checked then rankWordAux r counter found (pos + 1) checked cs
    else rankWordAux r counter found (pos + 1) (c :: checked) cs -
      r.need_check c pos found * counter c

/-- Python `rank_word(word, rule)`; the globals `symbols_counter` and
`found_symbols` are passed explicitly. -/
def rank_word (w : Word) (r : Rule) (counter : Char → ℕ) (found : Finset Char) : ℚ :=
  rankWordAux r counter found 0 [] w

/-- Python `get_top_words(n, rule)`: stable ascending sort of the full word list by
`rank_word`, then the first `n` entries; the globals `all_words`,
`symbols_counter` and `found_symbols` are passed explicitly. -/
def get_top_words (n : Nat) (r : Rule) (allWords : List Word)
    (counter : Char → ℕ) (found : Finset Char) : List Word :=
  (allWords.mergeSort (fun a b => rank_word a r counter found ≤ rank_word b r counter found)).take n

/-- Python `apply_rule(rule)` on an explicit candidate set: the set comprehension
evaluates `rule.matches(word)` on every member, so a raised `IndexError`
(`none`) on any member aborts the whole filtering. -/
def apply_rule (r : Rule) (ws : Finset Word) : Option (Finset Word) :=
  if ∀ w ∈ ws, (r.matches w).isSome then
    some (ws.filter (fun w => r.matches w = some true))
  else none

/-- Characters stripped by Python `str.strip()` (the common ASCII whitespace). -/
def isPySpace (c : Char) : Bool :=
  c = ' ' ∨ c = '\t' ∨ c = '\n' ∨ c = '\x0b' ∨ c = '\x0c' ∨ c = '\r'

/-- Python `line.strip()`. -/
def pyStrip (w : Word) : Word :=
  ((w.dropWhile isPySpace).reverse.dropWhile isPySpace).reverse

/-- The module-level game state: `all_words`, `matched_words`,
`found_symbols` (`symbols_counter` is recomputed by `update_symbols_counter`
from `matched_words`, which `symbolsCounter` models directly). -/
structure GameState where
  all_words : List Word
  matched_words : Finset Word
  found_symbols : Finset Char
deriving DecidableEq

/-- The state at module load: every global container empty. -/
def initState : GameState :=
  ⟨[], ∅, ∅⟩

/-- Python `read_file(filename)`: the argument is the file's lines when the file
opens, `none` when `open` raises `FileNotFoundError`; in the error branch the
message is printed and every container is left untouched; otherwise each
line is stripped and appended to `all_words` and inserted into
`matched_words`, with no length check. -/
def read_file (contents : Option (List Word)) (s : GameState) : GameState :=
  match contents with
  | none => s
  | some lines =>
    { s with
      all_words := s.all_words ++ lines.map pyStrip
      matched_words := s.matched_words ∪ (lines.map pyStrip).toFinset }

/-- The two ways `game_step` can go before any I/O: with fewer than two
matched words it prints the game-over message and returns `False`; otherwise
it prompts the player for a word and feedback. -/
inductive StepOutcome where
  | terminated
  | needsGuess
deriving DecidableEq

/-- The branch structure of `game_step(rule)`. -/
def game_step_outcome (s : GameState) : StepOutcome :=
  if s.matched_words.card < 2 then StepOutcome.terminated else StepOutcome.needsGuess

/-- Modelled from the spec, not from the source (the source has no
per-position table): `build_frequency_table(candidates)`,
`table[position][symbol]` = number of candidate words with `symbol` at
`position`. -/
def specFreqTable (candidates : Finset Word) (pos : Nat) (c : Char) : ℕ :=
  (candidates.filter (fun w => w.get? pos = some c)).card

/-- Modelled from the spec, not from the source: the loop of
`score(word, table)`, summing `table[position][symbol]` left to right and
counting each duplicate symbol once at its first occurrence. -/
def specScoreAux (table : Nat → Char → ℕ) : Nat → List Char → List Char → ℕ
  | _, _, [] => 0
  | pos, seen, c :: cs =>
    if c ∈ seen then specScoreAux table (pos + 1) seen cs
    else table pos c + specScoreAux table (pos + 1) (c :: seen) cs

/-- Modelled from the spec, not from the source: `score(word, table)` over
the table built from the candidate set. -/
def specScore (candidates : Finset Word) (w : Word) : ℕ :=
  specScoreAux (specFreqTable candidates) 0 [] w

/-- First index of `c` in a list (the position `rank_word` pairs with a
symbol, since later duplicates are skipped). -/
def firstIdx (c : Char) : List Char → Nat
  | [] => 0
  | d :: ds => if d = c then 0 else firstIdx c ds + 1

/-- When every position of `ps` is in range, the `any(...)` generator of
`Rule.matches` runs to completion: no `IndexError`. -/
theorem checkPositions_isSome (w : Word) (sym : Char) (ps : List Nat)
    (h : ∀ q ∈ ps, q < w.length) : (checkPositions w sym ps).isSome := by
  induction ps with
  | nil => rfl
  | cons p ps ih =>
    have hp : p < w.length := h p (by simp)
    have hg : w.get? p = some w[p] := by
      rw [List.get?_eq_getElem?]
      exact List.getElem?_eq_getElem hp
    simp only [checkPositions, hg]
    by_cases hgc : w[p] = sym
    · rw [if_neg (not_ne_iff.mpr hgc)]
      exact ih (fun q hq => h q (by simp [hq]))
    · rw [if_pos hgc]
      rfl

/-- If some in-range position of `ps` carries a symbol other than `sym`,
the `any(...)` generator of `Rule.matches` yields `True`. -/
theorem checkPositions_mem_ne (w : Word) (sym : Char) (ps : List Nat) (p : Nat)
    (hmem : p ∈ ps) (hlt : p < w.length) (hne : w.get ⟨p, hlt⟩ ≠ sym)
    (hall : ∀ q ∈ ps, q < w.length) : checkPositions w sym ps = some true := by
  induction ps with
  | nil => cases hmem
  | cons q ps ih =>
    have hq : q < w.length := hall q (by simp)
    have hg : w.get? q = some w[q] := by
      rw [List.get?_eq_getElem?]
      exact List.getElem?_eq_getElem hq
    simp only [checkPositions, hg]
    by_cases hgc : w[q] = sym
    · rw [if_neg (not_ne_iff.mpr hgc)]
      have hne' : w[p] ≠ sym := by simpa only [List.get_eq_getElem] using hne
      have hpq : p ≠ q := by
        intro e
        subst e
        exact hne' hgc
      have hptail : p ∈ ps := by
        rcases List.mem_cons.mp hmem with h | h
        · exact absurd h hpq
        · exact h
      exact ih hptail (fun x hx => hall x (by simp [hx]))
    · rw [if_pos hgc]

/-- When every recorded exact position is in range, the first loop of
`Rule.matches` completes without `IndexError`. -/
theorem matchLoop_isSome (w : Word) (entries : List (Char × List Nat))
    (h : ∀ pr ∈ entries, ∀ q ∈ pr.2, q < w.length) : (matchLoop w entries).isSome := by
  induction entries with
  | nil => rfl
  | cons f fs ih =>
    obtain ⟨sym, ps⟩ := f
    have hf : (checkPositions w sym ps).isSome :=
      checkPositions_isSome w sym ps (h (sym, ps) (by simp))
    simp only [matchLoop]
    cases hcp : checkPositions w sym ps with
    | none => rw [hcp] at hf; cases hf
    | some b =>
      cases b
      · exact ih (fun pr hpr => h pr (by simp [hpr]))
      · rfl

/-- If some entry of the `_match` dict has a failing in-range position,
the first loop of `Rule.matches` returns `False` (given that all recorded
positions are in range, so no entry raises first). -/
theorem matchLoop_reject (w : Word) (entries : List (Char × List Nat))
    (e : Char × List Nat) (hmem : e ∈ entries)
    (hcp : checkPositions w e.1 e.2 = some true)
    (hall : ∀ pr ∈ entries, ∀ q ∈ pr.2, q < w.length) :
    matchLoop w entries = some false := by
  induction entries with
  | nil => cases hmem
  | cons f fs ih =>
    obtain ⟨sym, ps⟩ := f
    have hf : (checkPositions w sym ps).isSome :=
      checkPositions_isSome w sym ps (hall (sym, ps) (by simp))
    simp only [matchLoop]
    cases hcpf : checkPositions w sym ps with
    | none => rw [hcpf] at hf; cases hf
    | some b =>
      cases b
      · rcases List.mem_cons.mp hmem with he | he
        · rw [he] at hcp
          simp only [hcp] at hcpf
          cases hcpf
        · exact ih he (fun pr hpr => hall pr (by simp [hpr]))
      · rfl

/-- If the second loop of `Rule.matches` accepts, none of the word's symbols
is in the `_not_exists` set. -/
theorem existsLoop_true_not_absent (r : Rule) (w : Word) (pos : Nat) (cs : List Char)
    (h : existsLoop r w pos cs = true) : ∀ c ∈ cs, c ∉ r.notExistsRules := by
  induction cs generalizing pos with
  | nil => intro c hc; cases hc
  | cons d ds ih =>
    intro c hc
    simp only [existsLoop] at h
    by_cases hd : d ∈ r.notExistsRules
    · simp [hd] at h
    · rw [if_neg hd] at h
      by_cases hg : dictHasKey r.existsRules d ∧ (pos ∈ dictGet r.existsRules d ∨ d ∉ w)
      · simp [hg] at h
      · rw [if_neg hg] at h
        rcases List.mem_cons.mp hc with e | e
        · rw [e]; exact hd
        · exact ih (pos + 1) h c e

/-- Claim C4 (confirmed). Exact-constraint soundness: once
`add_match_rule(s, p)` has been recorded (so `p` is in the `_match` entry
for `s`), `matches(w)` returns `False` for every word `w` whose symbol at
position `p` differs from `s` (with every recorded exact position in range,
so that the first loop runs without `IndexError`). -/
theorem exact_rule_sound (r : Rule) (w : Word) (s : Char) (p : Nat)
    (hp : p ∈ dictGet r.matchRules s)
    (hall : ∀ pr ∈ r.matchRules, ∀ q ∈ pr.2, q < w.length)
    (hlt : p < w.length)
    (hne : w.get ⟨p, hlt⟩ ≠ s) :
    r.matches w = some false := by
  obtain ⟨entry, hfind⟩ : ∃ e, r.matchRules.find? (fun pr => pr.1 = s) = some e := by
    cases hf : r.matchRules.find? (fun pr => pr.1 = s) with
    | none =>
      rw [dictGet, hf] at hp
      cases hp
    | some e => exact ⟨e, rfl⟩
  have hmem : entry ∈ r.matchRules := List.mem_of_find?_eq_some hfind
  have hkey : entry.1 = s := by simpa using List.find?_some hfind
  have hpin : p ∈ entry.2 := by
    rw [dictGet, hfind] at hp
    exact hp
  have hcp : checkPositions w entry.1 entry.2 = some true := by
    refine checkPositions_mem_ne w entry.1 entry.2 p hpin hlt ?_ ?_
    · rw [hkey]
      exact hne
    · exact hall entry hmem
  have hml : matchLoop w r.matchRules = some false :=
    matchLoop_reject w r.matchRules entry hmem hcp hall
  rw [Rule.matches, hml]

/-- Claim C5 (confirmed). Absent-constraint soundness: once
`add_not_exists_rule(s)` has been recorded, `matches(w)` returns `False` for
every word `w` containing `s` anywhere (with every recorded exact position in
range, so that the first loop runs without `IndexError`). -/
theorem absent_rule_sound (r : Rule) (w : Word) (s : Char)
    (hs : s ∈ r.notExistsRules) (hw : s ∈ w)
    (hall : ∀ pr ∈ r.matchRules, ∀ q ∈ pr.2, q < w.length) :
    r.matches w = some false := by
  have hms : (matchLoop w r.matchRules).isSome := matchLoop_isSome w r.matchRules hall
  cases hml : matchLoop w r.matchRules with
  | none =>
    rw [hml] at hms
    cases hms
  | some b =>
    cases b
    · rw [Rule.matches, hml]
    · have hex : existsLoop r w 0 w = false := by
        cases hexv : existsLoop r w 0 w with
        | false => rfl
        | true => exact absurd hs (existsLoop_true_not_absent r w 0 w hexv s hw)
      rw [Rule.matches, hml, hex]

/-- Claim C4, witness: with the single recorded exact rule `('a', 0)` the
word `"bcdef"` (whose symbol at position 0 is not `'a'`) is rejected. -/
theorem exact_rule_sound_witness :
    Rule.matches (Rule.init.add_match_rule 'a' 0) ['b','c','d','e','f'] = some false :=
  exact_rule_sound (Rule.init.add_match_rule 'a' 0) ['b','c','d','e','f'] 'a' 0
    (by decide) (by decide) (by decide) (by decide)

/-- Claim C5, witness: with `'a'` recorded absent, the word `"zazzz"`
containing `'a'` is rejected. -/
theorem absent_rule_sound_witness :
    Rule.matches (Rule.init.add_not_exists_rule 'a') ['z','a','z','z','z'] = some false :=
  absent_rule_sound (Rule.init.add_not_exists_rule 'a') ['z','a','z','z','z'] 'a'
    (by decide) (by decide) (by decide)

/-- Claim C1 (code_bug). With `('n', 1)` recorded as present-misplaced via
`add_exists_rule`, the word `"abcde"` — in which `'n'` does not occur at
all — is nevertheless accepted by `matches`: the source's rejection clause
`symbol not in word` can never fire because `symbol` is always drawn from
`word` itself, so a word missing a present-misplaced symbol passes. -/
theorem presentMisplaced_missing_symbol_accepted :
    'n' ∉ (['a','b','c','d','e'] : Word) ∧
    Rule.matches (Rule.init.add_exists_rule 'n' 1) ['a','b','c','d','e'] = some true := by
  decide

/-- Claim C10, counterexample: with exact rules `('a', 0)` and `('b', 9)`
recorded in that order, the word `"zzzzz"` is shorter than recorded exact
position 9, yet `matches` returns `False` without raising: the `any(...)`
over the first entry short-circuits at the in-range mismatch `word[0] != 'a'`
before position 9 is ever indexed. -/
theorem matches_short_word_no_raise :
    9 ∈ dictGet ((Rule.init.add_match_rule 'a' 0).add_match_rule 'b' 9).matchRules 'b' ∧
    (['z','z','z','z','z'] : Word).length ≤ 9 ∧
    Rule.matches ((Rule.init.add_match_rule 'a' 0).add_match_rule 'b' 9) ['z','z','z','z','z'] =
      some false := by
  decide

/-- Claim C10 (corrected). Totality of `matches` under the in-range
precondition: when every position recorded via `add_match_rule` is within
the word, `matches` returns a boolean (never the `IndexError` outcome
`none`); for 5-symbol words with all recorded positions in 0..4 the error
branch is unreachable. -/
theorem matches_isSome_of_in_range (r : Rule) (w : Word)
    (hall : ∀ pr ∈ r.matchRules, ∀ q ∈ pr.2, q < w.length) :
    (r.matches w).isSome := by
  have hms : (matchLoop w r.matchRules).isSome := matchLoop_isSome w r.matchRules hall
  cases hml : matchLoop w r.matchRules with
  | none =>
    rw [hml] at hms
    cases hms
  | some b =>
    cases b <;> rw [Rule.matches, hml] <;> rfl

/-- Claim C10, witness: with the single in-range exact rule `('b', 0)`,
`matches` on the 5-symbol word `"bcdef"` returns a boolean. -/
theorem matches_isSome_of_in_range_witness :
    (Rule.matches (Rule.init.add_match_rule 'b' 0) ['b','c','d','e','f']).isSome :=
  matches_isSome_of_in_range (Rule.init.add_match_rule 'b' 0) ['b','c','d','e','f'] (by decide)

/-- Claim C6 (confirmed). Idempotent re-filtering: when filtering the
candidate set `C` through a rule succeeds and yields `C'`, filtering `C'`
again through the same rule succeeds and yields `C'` unchanged. -/
theorem apply_rule_idempotent (r : Rule) (C C' : Finset Word)
    (h : apply_rule r C = some C') : apply_rule r C' = some C' := by
  by_cases htot : ∀ w ∈ C, (r.matches w).isSome
  · rw [apply_rule, if_pos htot] at h
    injection h with h
    subst h
    rw [apply_rule, if_pos ?_]
    · congr 1
      refine Finset.filter_eq_self.mpr ?_
      intro w hw
      exact (Finset.mem_filter.mp hw).2
    · intro w hw
      have hm := (Finset.mem_filter.mp hw).2
      rw [hm]
      rfl
  · rw [apply_rule, if_neg htot] at h
    cases h

/-- Claim C6, witness: filtering the already-filtered singleton set through
the rule that bans `'a'` leaves it unchanged. -/
theorem apply_rule_idempotent_witness :
    apply_rule (Rule.init.add_not_exists_rule 'a') {['b','b','b','b','b']} =
      some {['b','b','b','b','b']} :=
  apply_rule_idempotent (Rule.init.add_not_exists_rule 'a')
    {['a','a','a','a','a'], ['b','b','b','b','b']} {['b','b','b','b','b']} (by decide)

/-- Claim C7 (confirmed). Monotonic shrinkage: a successful filtering step
returns a subset of the candidate set it was given, so its size never
increases from one round to the next. -/
theorem apply_rule_shrinks (r : Rule) (C C' : Finset Word)
    (h : apply_rule r C = some C') : C' ⊆ C ∧ C'.card ≤ C.card := by
  by_cases htot : ∀ w ∈ C, (r.matches w).isSome
  · rw [apply_rule, if_pos htot] at h
    injection h with h
    subst h
    exact ⟨Finset.filter_subset _ _, Finset.card_filter_le _ _⟩
  · rw [apply_rule, if_neg htot] at h
    cases h

/-- Claim C7, witness: the filtered two-word set shrinks to a subset of
itself of no larger size. -/
theorem apply_rule_shrinks_witness :
    ({['b','b','b','b','b']} : Finset Word) ⊆ {['a','a','a','a','a'], ['b','b','b','b','b']} ∧
    ({['b','b','b','b','b']} : Finset Word).card ≤
      ({['a','a','a','a','a'], ['b','b','b','b','b']} : Finset Word).card :=
  apply_rule_shrinks (Rule.init.add_not_exists_rule 'a')
    {['a','a','a','a','a'], ['b','b','b','b','b']} {['b','b','b','b','b']} (by decide)

/-- Claim C8 (confirmed). Ranking determinism: `get_top_words` is a function
of the word list, the rule state, the symbol counter and the found-symbols
set alone, so two calls on equal inputs return the same ordered list. -/
theorem get_top_words_deterministic (n n' : Nat) (r r' : Rule)
    (aw aw' : List Word) (cnt cnt' : Char → ℕ) (found found' : Finset Char)
    (h1 : n = n') (h2 : r = r') (h3 : aw = aw') (h4 : cnt = cnt') (h5 : found = found') :
    get_top_words n r aw cnt found = get_top_words n' r' aw' cnt' found' := by
  subst h1 h2 h3 h4 h5
  rfl

/-- Claim C8, witness: a repeated call at a concrete corpus, rule, counter
and found-symbols set returns the same list. -/
theorem get_top_words_deterministic_witness :
    get_top_words 1 Rule.init [['a','b','c','d','e']] (fun _ => 0) ∅ =
      get_top_words 1 Rule.init [['a','b','c','d','e']] (fun _ => 0) ∅ :=
  get_top_words_deterministic 1 1 Rule.init Rule.init [['a','b','c','d','e']]
    [['a','b','c','d','e']] (fun _ => 0) (fun _ => 0) ∅ ∅ rfl rfl rfl rfl rfl

/-- Claim C9 (confirmed). When the corpus file is missing (`open` raises
`FileNotFoundError`), `read_file` leaves every container empty, and the
first `game_step` finds fewer than 2 matched words: it takes the game-over
branch and returns `False` without prompting for a guess. -/
theorem missing_corpus_reaches_terminal :
    (read_file none initState).matched_words = ∅ ∧
    game_step_outcome (read_file none initState) = StepOutcome.terminated := by
  constructor <;> rfl

/-- Claim C3, counterexample: fed the single line `"abc"`, `read_file` puts
the 3-symbol word `"abc"` into `matched_words` — lines whose length differs
from 5 are not skipped or rejected. -/
theorem read_file_keeps_short_line :
    (['a','b','c'] : Word) ∈ (read_file (some [['a','b','c']]) initState).matched_words ∧
    (['a','b','c'] : Word).length ≠ 5 := by
  decide

/-- Claim C3 (corrected). `read_file` strips each line and adds every
resulting word to `all_words` and `matched_words` unconditionally: there is
no length check, so words of any length enter the corpus. -/
theorem read_file_adds_stripped_lines (lines : List Word) (s : GameState) :
    (read_file (some lines) s).all_words = s.all_words ++ lines.map pyStrip ∧
    (read_file (some lines) s).matched_words = s.matched_words ∪ (lines.map pyStrip).toFinset :=
  ⟨rfl, rfl⟩

/-- Claim C2, counterexample: over the candidate set `{"abccc"}` with a
fresh rule and no found symbols, the spec's per-position-table score ranks
`"abzzz"` strictly above `"bacde"`, yet the code's `rank_word` gives
`"bacde"` the strictly smaller (better) rank: the code's score is built from
the position-independent `symbols_counter`, not from a per-position table. -/
theorem rank_not_positional :
    specScore {['a','b','c','c','c']} ['a','b','z','z','z'] >
      specScore {['a','b','c','c','c']} ['b','a','c','d','e'] ∧
    rank_word ['b','a','c','d','e'] Rule.init (symbolsCounter {['a','b','c','c','c']}) ∅ <
      rank_word ['a','b','z','z','z'] Rule.init (symbolsCounter {['a','b','c','c','c']}) ∅ := by
  refine ⟨by decide, ?_⟩
  have h1 : rank_word ['b','a','c','d','e'] Rule.init (symbolsCounter {['a','b','c','c','c']}) ∅ =
      -5 := by
    simp +decide [rank_word, rankWordAux, Rule.need_check, Rule.init, Rule.TOTAL_SYMBOLS,
      symbolsCounter, dictHasKey, dictGet, Finset.sum_singleton, List.count_cons, List.count_nil]
    norm_num
  have h2 : rank_word ['a','b','z','z','z'] Rule.init (symbolsCounter {['a','b','c','c','c']}) ∅ =
      -2 := by
    simp +decide [rank_word, rankWordAux, Rule.need_check, Rule.init, Rule.TOTAL_SYMBOLS,
      symbolsCounter, dictHasKey, dictGet, Finset.sum_singleton, List.count_cons, List.count_nil]
    norm_num
  rw [h1, h2]
  norm_num

/-- The loop of `rank_word` as a closed-form sum: given the symbols already
`checked`, the remaining loop contributes, for each distinct not-yet-checked
symbol of the rest of the word, `need_check` at its first occurrence times
its counter value, all negated. -/
theorem rankWordAux_eq (r : Rule) (counter : Char → ℕ) (found : Finset Char)
    (cs : List Char) (pos : Nat) (checked : List Char) :
    rankWordAux r counter found pos checked cs =
      -∑ c ∈ cs.toFinset \ checked.toFinset,
        r.need_check c (pos + firstIdx c cs) found * counter c := by
  induction cs generalizing pos checked with
  | nil => simp [rankWordAux]
  | cons d ds ih =>
    simp only [rankWordAux]
    by_cases hd : d ∈ checked
    · rw [if_pos hd, ih (pos + 1) checked]
      have hset : (d :: ds).toFinset \ checked.toFinset = ds.toFinset \ checked.toFinset := by
        ext x
        simp only [List.toFinset_cons, Finset.mem_sdiff, Finset.mem_insert, List.mem_toFinset]
        constructor
        · rintro ⟨hx | hx, hnc⟩
          · exact absurd (hx ▸ hd) hnc
          · exact ⟨hx, hnc⟩
        · rintro ⟨hx, hnc⟩
          exact ⟨Or.inr hx, hnc⟩
      rw [hset]
      congr 1
      refine Finset.sum_congr rfl ?_
      intro c hc
      have hcd : c ≠ d := by
        intro e
        exact (Finset.mem_sdiff.mp hc).2 (List.mem_toFinset.mpr (by rw [e]; exact hd))
      simp only [firstIdx]
      rw [if_neg (fun e => hcd e.symm)]
      have harith : pos + (firstIdx c ds + 1) = pos + 1 + firstIdx c ds := by omega
      rw [harith]
    · rw [if_neg hd, ih (pos + 1) (d :: checked)]
      have hset : (d :: ds).toFinset \ checked.toFinset =
          insert d (ds.toFinset \ (d :: checked).toFinset) := by
        ext x
        simp only [List.toFinset_cons, Finset.mem_sdiff, Finset.mem_insert, List.mem_toFinset,
          List.mem_cons]
        constructor
        · rintro ⟨hx | hx, hnc⟩
          · exact Or.inl hx
          · by_cases hxd : x = d
            · exact Or.inl hxd
            · exact Or.inr ⟨hx, fun hor => hor.elim hxd hnc⟩
        · rintro (hx | ⟨hx, hnor⟩)
          · exact ⟨Or.inl hx, hx ▸ hd⟩
          · exact ⟨Or.inr hx, fun hc => hnor (Or.inr hc)⟩
      have hnotmem : d ∉ ds.toFinset \ (d :: checked).toFinset := by
        simp
      rw [hset, Finset.sum_insert hnotmem]
      have hsum : ∑ c ∈ ds.toFinset \ (d :: checked).toFinset,
            r.need_check c (pos + firstIdx c (d :: ds)) found * counter c
          = ∑ c ∈ ds.toFinset \ (d :: checked).toFinset,
            r.need_check c (pos + 1 + firstIdx c ds) found * counter c := by
        refine Finset.sum_congr rfl ?_
        intro c hc
        have hcd : c ≠ d := by
          intro e
          exact (Finset.mem_sdiff.mp hc).2 (List.mem_toFinset.mpr (by rw [e]; exact List.mem_cons_self d checked))
        simp only [firstIdx]
        rw [if_neg (fun e => hcd e.symm)]
        have harith : pos + (firstIdx c ds + 1) = pos + 1 + firstIdx c ds := by omega
        rw [harith]
      rw [hsum]
      have hfd : firstIdx d (d :: ds) = 0 := by simp [firstIdx]
      simp only [hfd, Nat.add_zero]
      ring

/-- Claim C2 (corrected). The code's score: `rank_word(word)` equals the
negated sum, over the word's distinct symbols, of
`need_check(symbol, first occurrence position, found_symbols)` times the
position-independent counter value of that symbol — duplicates count once,
at their first occurrence, and lower ranks mean more informative words. -/
theorem rank_word_eq_neg_weighted_sum (w : Word) (r : Rule) (counter : Char → ℕ)
    (found : Finset Char) :
    rank_word w r counter found =
      -∑ c ∈ w.toFinset, r.need_check c (firstIdx c w) found * counter c := by
  have h := rankWordAux_eq r counter found w 0 []
  simpa [rank_word] using h
